import Mathlib

/-!
Verification of the `buf-view` byte-buffer library.

The library (src/buf_view.rs, src/buf_view_mut.rs, src/macros.rs) provides two
cursor-based views over a contiguous byte region:

* `BufView`    — read-only view: sequential reads and random-access gets;
* `BufViewMut` — read/write view: everything `BufView` does plus sequential
  writes and random-access sets, and an `std::io::Write` implementation.

Both structs have the same three fields (`buf`, `reader_index`, `writer_index`)
and their read/get/cursor method bodies are textually identical (most are
generated by the shared macros in macros.rs).  We therefore embed the common
state once as `BufViewState`, give the shared operations once, and keep two
namespaces `BufView` / `BufViewMut` for the constructors and for the
write-surface that only `BufViewMut` has.

Bytes are modelled as `Nat` (a byte is a value `< 256`; truncation `% 256`
is applied exactly where Rust's `u8` typing enforces it).  Machine integers
are modelled as `Nat` (unsigned) and `Int` (signed, two's complement via
`asSigned`).  `f32`/`f64` are handled through their bit patterns: the code
only ever moves their bytes (`to_be_bytes` / `from_be_bytes`), so the float
operations coincide byte-for-byte with the `u32`/`u64` ones.

Every fallible operation (one that can `panic!`/`assert!` in Rust) returns
`Option`; `none` models a fault.  Slice indexing panics and
`copy_from_slice`'s equal-length requirement are modelled by explicit guards
at each use site.
-/

/-! ## Byte-order conversion primitives (Rust `from_be_bytes` etc.) -/

/-- Big-endian interpretation of a byte list: first byte is most significant
(`u32::from_be_bytes` and friends). -/
def fromBeBytes (bs : List Nat) : Nat :=
  bs.foldl (fun acc b => acc * 256 + b) 0

/-- Little-endian interpretation: first byte is least significant
(`u32::from_le_bytes` and friends). -/
def fromLeBytes (bs : List Nat) : Nat :=
  fromBeBytes bs.reverse

/-- Little-endian encoding of `v` into `n` bytes (`to_le_bytes`); higher bits
beyond `n` bytes are truncated, as the fixed-width Rust types enforce. -/
def toLeBytes : Nat → Nat → List Nat
  | 0, _ => []
  | n + 1, v => v % 256 :: toLeBytes n (v / 256)

/-- Big-endian encoding of `v` into `n` bytes (`to_be_bytes`). -/
def toBeBytes (n v : Nat) : List Nat :=
  (toLeBytes n v).reverse

/-- Two's-complement reading of an `n`-byte unsigned value as a signed integer
(`i16::from_be_bytes` = `asSigned 2 ∘ fromBeBytes`, etc.). -/
def asSigned (n k : Nat) : Int :=
  if 2 * k < 256 ^ n then (k : Int) else (k : Int) - 256 ^ n

/-- The `n`-byte two's-complement bit pattern of a signed integer
(the `u`-reinterpretation of an `iN` value). -/
def toNatBits (n : Nat) (v : Int) : Nat :=
  (v % ((256 : Int) ^ n)).toNat

/-- `iN::to_be_bytes`. -/
def toBeBytesSigned (n : Nat) (v : Int) : List Nat :=
  toBeBytes n (toNatBits n v)

/-- `iN::to_le_bytes`. -/
def toLeBytesSigned (n : Nat) (v : Int) : List Nat :=
  toLeBytes n (toNatBits n v)

/-! ## Conversion lemmas -/

theorem toLeBytes_length (n v : Nat) : (toLeBytes n v).length = n := by
  induction n generalizing v with
  | zero => rfl
  | succ n ih => simp [toLeBytes, ih]

theorem toBeBytes_length (n v : Nat) : (toBeBytes n v).length = n := by
  simp [toBeBytes, toLeBytes_length]

theorem fromBeBytes_append_singleton (xs : List Nat) (b : Nat) :
    fromBeBytes (xs ++ [b]) = fromBeBytes xs * 256 + b := by
  simp [fromBeBytes, List.foldl_append]

theorem fromBeBytes_toBeBytes (n v : Nat) :
    fromBeBytes (toBeBytes n v) = v % 256 ^ n := by
  induction n generalizing v with
  | zero => simp [toBeBytes, toLeBytes, fromBeBytes, Nat.mod_one]
  | succ n ih =>
    have hstep : toBeBytes (n + 1) v = toBeBytes n (v / 256) ++ [v % 256] := by
      simp [toBeBytes, toLeBytes]
    rw [hstep, fromBeBytes_append_singleton, ih]
    have h1 : v % (256 * 256 ^ n) = 256 * (v / 256 % 256 ^ n) + v % 256 := by
      have hd : v % (256 * 256 ^ n) / 256 = v / 256 % 256 ^ n :=
        Nat.mod_mul_right_div_self v 256 (256 ^ n)
      have hm : v % (256 * 256 ^ n) % 256 = v % 256 :=
        Nat.mod_mul_right_mod v 256 (256 ^ n)
      have := Nat.div_add_mod (v % (256 * 256 ^ n)) 256
      omega
    have h2 : (256 : Nat) ^ (n + 1) = 256 * 256 ^ n := by ring
    rw [h2, h1]
    ring

theorem fromLeBytes_toLeBytes (n v : Nat) :
    fromLeBytes (toLeBytes n v) = v % 256 ^ n := by
  have : fromLeBytes (toLeBytes n v) = fromBeBytes (toBeBytes n v) := by
    simp [fromLeBytes, toBeBytes]
  rw [this, fromBeBytes_toBeBytes]

theorem toNatBits_lt (n : Nat) (v : Int) : toNatBits n v < 256 ^ n := by
  unfold toNatBits
  have hpos : (0 : Int) < (256 : Int) ^ n := by positivity
  have hlt : v % ((256 : Int) ^ n) < (256 : Int) ^ n := Int.emod_lt_of_pos v hpos
  have hge : (0 : Int) ≤ v % ((256 : Int) ^ n) := Int.emod_nonneg v (by positivity)
  have hcast : ((256 ^ n : Nat) : Int) = (256 : Int) ^ n := by push_cast; ring
  omega

theorem asSigned_toNatBits (n : Nat) (v : Int)
    (hlo : -((256 : Int) ^ n) ≤ 2 * v) (hhi : 2 * v < (256 : Int) ^ n) :
    asSigned n (toNatBits n v) = v := by
  have hpos : (0 : Int) < (256 : Int) ^ n := by positivity
  have hcast : ((256 ^ n : Nat) : Int) = (256 : Int) ^ n := by push_cast; ring
  unfold asSigned toNatBits
  rcases le_or_lt 0 v with hv | hv
  · have hvM : v < (256 : Int) ^ n := by omega
    have hev : v % ((256 : Int) ^ n) = v := Int.emod_eq_of_lt hv hvM
    rw [hev]
    have hcond : 2 * v.toNat < 256 ^ n := by omega
    rw [if_pos hcond]
    omega
  · have h0 : (0 : Int) ≤ v + (256 : Int) ^ n := by omega
    have h1 : v + (256 : Int) ^ n < (256 : Int) ^ n := by omega
    have hev : v % ((256 : Int) ^ n) = v + (256 : Int) ^ n := by
      have h2 : (v + (256 : Int) ^ n * 1) % ((256 : Int) ^ n) = v % ((256 : Int) ^ n) :=
        Int.add_mul_emod_self_left v ((256 : Int) ^ n) 1
      have h3 : v + (256 : Int) ^ n * 1 = v + (256 : Int) ^ n := by ring
      rw [h3] at h2
      rw [← h2]
      exact Int.emod_eq_of_lt h0 h1
    rw [hev]
    have hcond : ¬ 2 * (v + (256 : Int) ^ n).toNat < 256 ^ n := by omega
    rw [if_neg hcond]
    omega

/-! ## List slice helpers -/

/-- Overwrite the `s.length` bytes of `l` starting at offset `i` with `s`
(Rust `l[i..i+s.len()].copy_from_slice(s)`); meaningful when
`i + s.length ≤ l.length`. -/
def setSlice (l : List Nat) (i : Nat) (s : List Nat) : List Nat :=
  l.take i ++ s ++ l.drop (i + s.length)

theorem setSlice_length (l : List Nat) (i : Nat) (s : List Nat)
    (h : i + s.length ≤ l.length) : (setSlice l i s).length = l.length := by
  simp [setSlice]
  omega

theorem setSlice_extract (l : List Nat) (i : Nat) (s : List Nat)
    (h : i + s.length ≤ l.length) :
    ((setSlice l i s).drop i).take s.length = s := by
  unfold setSlice
  have hti : (l.take i).length = i := by simp; omega
  rw [List.append_assoc, List.drop_left' hti, List.take_left' rfl]

theorem slice_length (l : List Nat) (i k : Nat) (h : i + k ≤ l.length) :
    ((l.drop i).take k).length = k := by
  simp
  omega

/-! ## The shared view state

Both `BufView<'a>` (src/buf_view.rs lines 48-53) and `BufViewMut<'a>`
(src/buf_view_mut.rs lines 42-47) consist of exactly these three fields. -/

structure BufViewState where
  buf : List Nat
  reader_index : Nat
  writer_index : Nat
deriving DecidableEq, Repr

/-- `remaining()` — src/buf_view.rs lines 310-312 and src/buf_view_mut.rs
lines 501-503, identical bodies. -/
def BufViewState.remaining (b : BufViewState) : Nat :=
  b.writer_index - b.reader_index

/-- `capacity()` — `self.buf.len()` in both files. -/
def BufViewState.capacity (b : BufViewState) : Nat :=
  b.buf.length

/-- The documented well-formedness invariant
`0 ≤ reader_index ≤ writer_index ≤ capacity`. -/
def BufInv (b : BufViewState) : Prop :=
  b.reader_index ≤ b.writer_index ∧ b.writer_index ≤ b.buf.length

instance (b : BufViewState) : Decidable (BufInv b) := by
  unfold BufInv
  infer_instance

/-! ## Shared read surface

`read_u8`/`read_i8`/`read_bytes` and the whole `get` family have textually
identical bodies in src/buf_view.rs (lines 80-279) and src/buf_view_mut.rs
(lines 77-276); the multi-byte variants expand the shared macros
`buf_read_do!` / `buf_get_do!` of src/macros.rs.  They are embedded once. -/

/-- `read_u8` — src/buf_view.rs lines 80-85 / src/buf_view_mut.rs lines 77-82:
`assert!(remaining() >= 1)`, read `buf[reader_index]`, advance by one. -/
def BufViewState.read_u8 (b : BufViewState) : Option (Nat × BufViewState) :=
  if b.remaining ≥ 1 then
    (b.buf.get? b.reader_index).map
      (fun v => (v, { b with reader_index := b.reader_index + 1 }))
  else none

/-- `read_i8` — `self.read_u8() as i8`. -/
def BufViewState.read_i8 (b : BufViewState) : Option (Int × BufViewState) :=
  b.read_u8.map (fun p => (asSigned 1 p.1, p.2))

/-- The `be` arm of the `buf_read_do!` macro (src/macros.rs lines 2-8):
`assert!(remaining() >= size)`, decode `buf[reader_index..reader_index+size]`
big-endian, advance `reader_index`.  The second conjunct of the guard models
the slice-indexing / `try_into().unwrap()` panic, impossible under `BufInv`. -/
def buf_read_do_be (size : Nat) (b : BufViewState) : Option (Nat × BufViewState) :=
  if b.remaining ≥ size ∧ b.reader_index + size ≤ b.buf.length then
    some (fromBeBytes ((b.buf.drop b.reader_index).take size),
          { b with reader_index := b.reader_index + size })
  else none

/-- The `le` arm of `buf_read_do!` (src/macros.rs lines 10-16). -/
def buf_read_do_le (size : Nat) (b : BufViewState) : Option (Nat × BufViewState) :=
  if b.remaining ≥ size ∧ b.reader_index + size ≤ b.buf.length then
    some (fromLeBytes ((b.buf.drop b.reader_index).take size),
          { b with reader_index := b.reader_index + size })
  else none

/-- Signed decode through the `be` macro arm, as `iN::from_be_bytes` does. -/
def buf_read_do_be_signed (size : Nat) (b : BufViewState) : Option (Int × BufViewState) :=
  (buf_read_do_be size b).map (fun p => (asSigned size p.1, p.2))

/-- Signed decode through the `le` macro arm. -/
def buf_read_do_le_signed (size : Nat) (b : BufViewState) : Option (Int × BufViewState) :=
  (buf_read_do_le size b).map (fun p => (asSigned size p.1, p.2))

/-- `read_bytes(dest)` — src/buf_view.rs lines 171-179 / src/buf_view_mut.rs
lines 168-176: `assert!(remaining() >= dest.len())`, copy
`copy_len = min(dest.len(), remaining())` bytes from `reader_index` into the
front of `dest`, advance `reader_index`, return the count.  Result is
`(count, updated dest, updated view)`; the inner guard models the
`buf[reader_index..end]` slice panic, impossible under `BufInv`. -/
def BufViewState.read_bytes (b : BufViewState) (dest : List Nat) :
    Option (Nat × List Nat × BufViewState) :=
  let left := b.remaining
  if left ≥ dest.length then
    let copy_len := if dest.length < left then dest.length else left
    if b.reader_index + copy_len ≤ b.buf.length then
      some (copy_len,
            (b.buf.drop b.reader_index).take copy_len ++ dest.drop copy_len,
            { b with reader_index := b.reader_index + copy_len })
    else none
  else none

/-- `get_u8(index)` — `assert!(buf.len() > index)`, return `buf[index]`;
does not touch the cursors (the view is returned unchanged, mirroring the
absence of any field assignment in the source). -/
def BufViewState.get_u8 (b : BufViewState) (index : Nat) : Option (Nat × BufViewState) :=
  if b.buf.length > index then
    (b.buf.get? index).map (fun v => (v, b))
  else none

/-- `get_i8(index)` — `self.get_u8(index) as i8`. -/
def BufViewState.get_i8 (b : BufViewState) (index : Nat) : Option (Int × BufViewState) :=
  (b.get_u8 index).map (fun p => (asSigned 1 p.1, p.2))

/-- The `be` arm of the `buf_get_do!` macro (src/macros.rs lines 20-25):
`assert!(buf.len() >= index + size)`, decode big-endian at `index`,
cursors untouched. -/
def buf_get_do_be (size index : Nat) (b : BufViewState) : Option (Nat × BufViewState) :=
  if b.buf.length ≥ index + size then
    some (fromBeBytes ((b.buf.drop index).take size), b)
  else none

/-- The `le` arm of `buf_get_do!` (src/macros.rs lines 27-32). -/
def buf_get_do_le (size index : Nat) (b : BufViewState) : Option (Nat × BufViewState) :=
  if b.buf.length ≥ index + size then
    some (fromLeBytes ((b.buf.drop index).take size), b)
  else none

/-- Signed decode through the `be` get arm. -/
def buf_get_do_be_signed (size index : Nat) (b : BufViewState) : Option (Int × BufViewState) :=
  (buf_get_do_be size index b).map (fun p => (asSigned size p.1, p.2))

/-- Signed decode through the `le` get arm. -/
def buf_get_do_le_signed (size index : Nat) (b : BufViewState) : Option (Int × BufViewState) :=
  (buf_get_do_le size index b).map (fun p => (asSigned size p.1, p.2))

/-- `get_bytes(index, dest)` — src/buf_view.rs lines 270-279 /
src/buf_view_mut.rs lines 267-276: `assert!(buf.len() > index)`, then copy
`copy_len = if index + dest.len() <= buf.len() { dest.len() } else
{ buf.len() - index }` bytes (silent truncation), return the count;
cursors untouched. -/
def BufViewState.get_bytes (b : BufViewState) (index : Nat) (dest : List Nat) :
    Option (Nat × List Nat × BufViewState) :=
  if b.buf.length > index then
    let copy_len := if index + dest.length ≤ b.buf.length then dest.length
                    else b.buf.length - index
    some (copy_len, (b.buf.drop index).take copy_len ++ dest.drop copy_len, b)
  else none

/-! ## Shared cursor operations (identical in both files) -/

/-- `set_reader_index(index)`:
`assert!(buf.len() >= index && index <= writer_index)`. -/
def BufViewState.set_reader_index (b : BufViewState) (index : Nat) : Option BufViewState :=
  if b.buf.length ≥ index ∧ index ≤ b.writer_index then
    some { b with reader_index := index }
  else none

/-- `set_writer_index(index)`:
`assert!(buf.len() >= index && index >= reader_index)`. -/
def BufViewState.set_writer_index (b : BufViewState) (index : Nat) : Option BufViewState :=
  if b.buf.length ≥ index ∧ index ≥ b.reader_index then
    some { b with writer_index := index }
  else none

/-- `set_index(reader_index, writer_index)`:
`assert!(reader_index <= writer_index && buf.len() >= writer_index)`. -/
def BufViewState.set_index (b : BufViewState) (r w : Nat) : Option BufViewState :=
  if r ≤ w ∧ b.buf.length ≥ w then
    some { b with reader_index := r, writer_index := w }
  else none

/-- `clear()` — reset both cursors to 0, backing bytes untouched. -/
def BufViewState.clear (b : BufViewState) : BufViewState :=
  { b with reader_index := 0, writer_index := 0 }

/-! ## Constructors -/

namespace BufView

/-- `BufView::wrap_with` — src/buf_view.rs lines 71-78:
`assert!(reader_index <= writer_index && buf.len() >= writer_index)`. -/
def wrap_with (buf : List Nat) (reader_index writer_index : Nat) : Option BufViewState :=
  if reader_index ≤ writer_index ∧ buf.length ≥ writer_index then
    some { buf := buf, reader_index := reader_index, writer_index := writer_index }
  else none

/-- `BufView::wrap` — src/buf_view.rs lines 58-61:
`wrap_with(buf, 0, buf.len())`. -/
def wrap (buf : List Nat) : Option BufViewState :=
  wrap_with buf 0 buf.length

end BufView

namespace BufViewMut

/-- `BufViewMut::wrap_with` — src/buf_view_mut.rs lines 68-75, same assert
as `BufView::wrap_with`. -/
def wrap_with (buf : List Nat) (reader_index writer_index : Nat) : Option BufViewState :=
  if reader_index ≤ writer_index ∧ buf.length ≥ writer_index then
    some { buf := buf, reader_index := reader_index, writer_index := writer_index }
  else none

/-- `BufViewMut::wrap` — src/buf_view_mut.rs lines 52-54:
`wrap_with(buf, 0, 0)`. -/
def wrap (buf : List Nat) : Option BufViewState :=
  wrap_with buf 0 0

/-! ## Write surface (`BufViewMut` only) -/

/-- `write_u8(val)` — src/buf_view_mut.rs lines 278-282:
`assert!(buf.len() >= writer_index + 1)`, store, advance by one.
`% 256` models the `u8` typing of `val`. -/
def write_u8 (b : BufViewState) (val : Nat) : Option BufViewState :=
  if b.buf.length ≥ b.writer_index + 1 then
    some { b with buf := b.buf.set b.writer_index (val % 256),
                  writer_index := b.writer_index + 1 }
  else none

/-- `write_bytes(src)` — src/buf_view_mut.rs lines 364-369:
`assert!(buf.len() >= writer_index + src.len())`, copy `src` at
`writer_index`, advance by `src.len()`. -/
def write_bytes (b : BufViewState) (src : List Nat) : Option BufViewState :=
  if b.buf.length ≥ b.writer_index + src.length then
    some { b with buf := setSlice b.buf b.writer_index src,
                  writer_index := b.writer_index + src.length }
  else none

/-- `write_bytes_uncheck(src)` — src/buf_view_mut.rs lines 371-379.
`copy_len = min(src.len(), buf.len() - writer_index)`, then
`self.buf[self.writer_index..].copy_from_slice(&src[..copy_len])`.
The guard's three conjuncts model, in evaluation order, the panics of
`buf[writer_index..]`, `src[..copy_len]`, and `copy_from_slice`'s
equal-length requirement (destination slice has length
`buf.len() - writer_index`, source slice has length `copy_len`).
`writer_index` is NOT advanced. -/
def write_bytes_uncheck (b : BufViewState) (src : List Nat) : Option (Nat × BufViewState) :=
  let copy_len := if b.writer_index + src.length > b.buf.length
                  then b.buf.length - b.writer_index
                  else src.length
  if b.writer_index ≤ b.buf.length ∧ copy_len ≤ src.length ∧
     b.buf.length - b.writer_index = copy_len then
    some (copy_len, { b with buf := b.buf.take b.writer_index ++ src.take copy_len })
  else none

/-- `set_u8(index, val)` — src/buf_view_mut.rs lines 381-384:
`assert!(buf.len() > index)`, store at `index`, cursors untouched. -/
def set_u8 (b : BufViewState) (index val : Nat) : Option BufViewState :=
  if b.buf.length > index then
    some { b with buf := b.buf.set index (val % 256) }
  else none

/-- `set_bytes(index, src)` — src/buf_view_mut.rs lines 466-470:
`assert!(buf.len() >= index + src.len())`, copy `src` at `index`,
cursors untouched. -/
def set_bytes (b : BufViewState) (index : Nat) (src : List Nat) : Option BufViewState :=
  if b.buf.length ≥ index + src.length then
    some { b with buf := setSlice b.buf index src }
  else none

/-- `impl Write for BufViewMut`, `write` — src/buf_view_mut.rs lines 531-534:
`let len = self.write_bytes_uncheck(buf); Ok(len)`.  The `io::Result` is
modelled as `Except String Nat`; the outer `Option` models the panic that
`write_bytes_uncheck` may raise. -/
def io_write (b : BufViewState) (src : List Nat) :
    Option (Except String Nat × BufViewState) :=
  (write_bytes_uncheck b src).map (fun p => (Except.ok p.1, p.2))

/-- `impl Write for BufViewMut`, `flush` — src/buf_view_mut.rs lines 536-538:
`Ok(())`, no state change, cannot fault. -/
def io_flush (b : BufViewState) : Except String Unit × BufViewState :=
  (Except.ok (), b)

end BufViewMut

/-! ## Per-type entry points

One definition per public method of the Rust API.  The multi-byte
read/get methods expand `buf_read_do!`/`buf_get_do!` at the type's size
(src/buf_view.rs lines 91-268, src/buf_view_mut.rs lines 88-265); the
write/set methods delegate to `write_bytes`/`set_bytes` on
`to_be_bytes`/`to_le_bytes` (src/buf_view_mut.rs lines 284-362, 386-464).
Floats are represented by their bit patterns. -/

def BufViewState.read_u16 (b : BufViewState) : Option (Nat × BufViewState) := buf_read_do_be 2 b

def BufViewState.read_u16_le (b : BufViewState) : Option (Nat × BufViewState) := buf_read_do_le 2 b

def BufViewState.read_i16 (b : BufViewState) : Option (Int × BufViewState) := buf_read_do_be_signed 2 b

def BufViewState.read_i16_le (b : BufViewState) : Option (Int × BufViewState) := buf_read_do_le_signed 2 b

def BufViewState.read_u32 (b : BufViewState) : Option (Nat × BufViewState) := buf_read_do_be 4 b

def BufViewState.read_u32_le (b : BufViewState) : Option (Nat × BufViewState) := buf_read_do_le 4 b

def BufViewState.read_i32 (b : BufViewState) : Option (Int × BufViewState) := buf_read_do_be_signed 4 b

def BufViewState.read_i32_le (b : BufViewState) : Option (Int × BufViewState) := buf_read_do_le_signed 4 b

def BufViewState.read_u64 (b : BufViewState) : Option (Nat × BufViewState) := buf_read_do_be 8 b

def BufViewState.read_u64_le (b : BufViewState) : Option (Nat × BufViewState) := buf_read_do_le 8 b

def BufViewState.read_i64 (b : BufViewState) : Option (Int × BufViewState) := buf_read_do_be_signed 8 b

def BufViewState.read_i64_le (b : BufViewState) : Option (Int × BufViewState) := buf_read_do_le_signed 8 b

def BufViewState.read_u128 (b : BufViewState) : Option (Nat × BufViewState) := buf_read_do_be 16 b

def BufViewState.read_u128_le (b : BufViewState) : Option (Nat × BufViewState) := buf_read_do_le 16 b

def BufViewState.read_i128 (b : BufViewState) : Option (Int × BufViewState) := buf_read_do_be_signed 16 b

def BufViewState.read_i128_le (b : BufViewState) : Option (Int × BufViewState) := buf_read_do_le_signed 16 b

/-- `read_f32` — the 4 bytes big-endian, as the bit pattern of the float. -/
def BufViewState.read_f32 (b : BufViewState) : Option (Nat × BufViewState) := buf_read_do_be 4 b

def BufViewState.read_f32_le (b : BufViewState) : Option (Nat × BufViewState) := buf_read_do_le 4 b

def BufViewState.read_f64 (b : BufViewState) : Option (Nat × BufViewState) := buf_read_do_be 8 b

def BufViewState.read_f64_le (b : BufViewState) : Option (Nat × BufViewState) := buf_read_do_le 8 b

def BufViewState.get_u16 (b : BufViewState) (i : Nat) : Option (Nat × BufViewState) := buf_get_do_be 2 i b

def BufViewState.get_u16_le (b : BufViewState) (i : Nat) : Option (Nat × BufViewState) := buf_get_do_le 2 i b

def BufViewState.get_i16 (b : BufViewState) (i : Nat) : Option (Int × BufViewState) := buf_get_do_be_signed 2 i b

def BufViewState.get_i16_le (b : BufViewState) (i : Nat) : Option (Int × BufViewState) := buf_get_do_le_signed 2 i b

def BufViewState.get_u32 (b : BufViewState) (i : Nat) : Option (Nat × BufViewState) := buf_get_do_be 4 i b

def BufViewState.get_u32_le (b : BufViewState) (i : Nat) : Option (Nat × BufViewState) := buf_get_do_le 4 i b

def BufViewState.get_i32 (b : BufViewState) (i : Nat) : Option (Int × BufViewState) := buf_get_do_be_signed 4 i b

def BufViewState.get_i32_le (b : BufViewState) (i : Nat) : Option (Int × BufViewState) := buf_get_do_le_signed 4 i b

def BufViewState.get_u64 (b : BufViewState) (i : Nat) : Option (Nat × BufViewState) := buf_get_do_be 8 i b

def BufViewState.get_u64_le (b : BufViewState) (i : Nat) : Option (Nat × BufViewState) := buf_get_do_le 8 i b

def BufViewState.get_i64 (b : BufViewState) (i : Nat) : Option (Int × BufViewState) := buf_get_do_be_signed 8 i b

def BufViewState.get_i64_le (b : BufViewState) (i : Nat) : Option (Int × BufViewState) := buf_get_do_le_signed 8 i b

def BufViewState.get_u128 (b : BufViewState) (i : Nat) : Option (Nat × BufViewState) := buf_get_do_be 16 i b

def BufViewState.get_u128_le (b : BufViewState) (i : Nat) : Option (Nat × BufViewState) := buf_get_do_le 16 i b

def BufViewState.get_i128 (b : BufViewState) (i : Nat) : Option (Int × BufViewState) := buf_get_do_be_signed 16 i b

def BufViewState.get_i128_le (b : BufViewState) (i : Nat) : Option (Int × BufViewState) := buf_get_do_le_signed 16 i b

def BufViewState.get_f32 (b : BufViewState) (i : Nat) : Option (Nat × BufViewState) := buf_get_do_be 4 i b

def BufViewState.get_f32_le (b : BufViewState) (i : Nat) : Option (Nat × BufViewState) := buf_get_do_le 4 i b

def BufViewState.get_f64 (b : BufViewState) (i : Nat) : Option (Nat × BufViewState) := buf_get_do_be 8 i b

def BufViewState.get_f64_le (b : BufViewState) (i : Nat) : Option (Nat × BufViewState) := buf_get_do_le 8 i b

namespace BufViewMut

def write_u16 (b : BufViewState) (v : Nat) : Option BufViewState := write_bytes b (toBeBytes 2 v)

def write_u16_le (b : BufViewState) (v : Nat) : Option BufViewState := write_bytes b (toLeBytes 2 v)

def write_i16 (b : BufViewState) (v : Int) : Option BufViewState := write_bytes b (toBeBytesSigned 2 v)

def write_i16_le (b : BufViewState) (v : Int) : Option BufViewState := write_bytes b (toLeBytesSigned 2 v)

def write_u32 (b : BufViewState) (v : Nat) : Option BufViewState := write_bytes b (toBeBytes 4 v)

def write_u32_le (b : BufViewState) (v : Nat) : Option BufViewState := write_bytes b (toLeBytes 4 v)

def write_i32 (b : BufViewState) (v : Int) : Option BufViewState := write_bytes b (toBeBytesSigned 4 v)

def write_i32_le (b : BufViewState) (v : Int) : Option BufViewState := write_bytes b (toLeBytesSigned 4 v)

def write_u64 (b : BufViewState) (v : Nat) : Option BufViewState := write_bytes b (toBeBytes 8 v)

def write_u64_le (b : BufViewState) (v : Nat) : Option BufViewState := write_bytes b (toLeBytes 8 v)

def write_i64 (b : BufViewState) (v : Int) : Option BufViewState := write_bytes b (toBeBytesSigned 8 v)

def write_i64_le (b : BufViewState) (v : Int) : Option BufViewState := write_bytes b (toLeBytesSigned 8 v)

def write_u128 (b : BufViewState) (v : Nat) : Option BufViewState := write_bytes b (toBeBytes 16 v)

def write_u128_le (b : BufViewState) (v : Nat) : Option BufViewState := write_bytes b (toLeBytes 16 v)

def write_i128 (b : BufViewState) (v : Int) : Option BufViewState := write_bytes b (toBeBytesSigned 16 v)

def write_i128_le (b : BufViewState) (v : Int) : Option BufViewState := write_bytes b (toLeBytesSigned 16 v)

def write_f32 (b : BufViewState) (v : Nat) : Option BufViewState := write_bytes b (toBeBytes 4 v)

def write_f32_le (b : BufViewState) (v : Nat) : Option BufViewState := write_bytes b (toLeBytes 4 v)

def write_f64 (b : BufViewState) (v : Nat) : Option BufViewState := write_bytes b (toBeBytes 8 v)

def write_f64_le (b : BufViewState) (v : Nat) : Option BufViewState := write_bytes b (toLeBytes 8 v)

def set_u16 (b : BufViewState) (i : Nat) (v : Nat) : Option BufViewState := set_bytes b i (toBeBytes 2 v)

def set_u16_le (b : BufViewState) (i : Nat) (v : Nat) : Option BufViewState := set_bytes b i (toLeBytes 2 v)

def set_i16 (b : BufViewState) (i : Nat) (v : Int) : Option BufViewState := set_bytes b i (toBeBytesSigned 2 v)

def set_i16_le (b : BufViewState) (i : Nat) (v : Int) : Option BufViewState := set_bytes b i (toLeBytesSigned 2 v)

def set_u32 (b : BufViewState) (i : Nat) (v : Nat) : Option BufViewState := set_bytes b i (toBeBytes 4 v)

def set_u32_le (b : BufViewState) (i : Nat) (v : Nat) : Option BufViewState := set_bytes b i (toLeBytes 4 v)

def set_i32 (b : BufViewState) (i : Nat) (v : Int) : Option BufViewState := set_bytes b i (toBeBytesSigned 4 v)

def set_i32_le (b : BufViewState) (i : Nat) (v : Int) : Option BufViewState := set_bytes b i (toLeBytesSigned 4 v)

def set_u64 (b : BufViewState) (i : Nat) (v : Nat) : Option BufViewState := set_bytes b i (toBeBytes 8 v)

def set_u64_le (b : BufViewState) (i : Nat) (v : Nat) : Option BufViewState := set_bytes b i (toLeBytes 8 v)

def set_i64 (b : BufViewState) (i : Nat) (v : Int) : Option BufViewState := set_bytes b i (toBeBytesSigned 8 v)

def set_i64_le (b : BufViewState) (i : Nat) (v : Int) : Option BufViewState := set_bytes b i (toLeBytesSigned 8 v)

def set_u128 (b : BufViewState) (i : Nat) (v : Nat) : Option BufViewState := set_bytes b i (toBeBytes 16 v)

def set_u128_le (b : BufViewState) (i : Nat) (v : Nat) : Option BufViewState := set_bytes b i (toLeBytes 16 v)

def set_i128 (b : BufViewState) (i : Nat) (v : Int) : Option BufViewState := set_bytes b i (toBeBytesSigned 16 v)

def set_i128_le (b : BufViewState) (i : Nat) (v : Int) : Option BufViewState := set_bytes b i (toLeBytesSigned 16 v)

def set_f32 (b : BufViewState) (i : Nat) (v : Nat) : Option BufViewState := set_bytes b i (toBeBytes 4 v)

def set_f32_le (b : BufViewState) (i : Nat) (v : Nat) : Option BufViewState := set_bytes b i (toLeBytes 4 v)

def set_f64 (b : BufViewState) (i : Nat) (v : Nat) : Option BufViewState := set_bytes b i (toBeBytes 8 v)

def set_f64_le (b : BufViewState) (i : Nat) (v : Nat) : Option BufViewState := set_bytes b i (toLeBytes 8 v)

end BufViewMut

/-! ## Inversion lemmas: what a non-faulting call implies -/

theorem read_u8_eq_some {b : BufViewState} {v : Nat} {b2 : BufViewState}
    (h : b.read_u8 = some (v, b2)) :
    1 ≤ b.remaining ∧ b.buf.get? b.reader_index = some v ∧
      b2 = { b with reader_index := b.reader_index + 1 } := by
  unfold BufViewState.read_u8 at h
  split at h
  · rename_i hc
    rcases Option.map_eq_some'.mp h with ⟨v0, hv0, heq⟩
    refine ⟨hc, ?_, ?_⟩
    · rw [hv0]
      simp at heq
      rw [heq.1]
    · simp at heq
      exact heq.2.symm
  · exact absurd h (by simp)

theorem buf_read_do_be_eq_some {size : Nat} {b : BufViewState} {v : Nat} {b2 : BufViewState}
    (h : buf_read_do_be size b = some (v, b2)) :
    size ≤ b.remaining ∧ b.reader_index + size ≤ b.buf.length ∧
      v = fromBeBytes ((b.buf.drop b.reader_index).take size) ∧
      b2 = { b with reader_index := b.reader_index + size } := by
  unfold buf_read_do_be at h
  split at h
  · rename_i hc
    injection h with h
    exact ⟨hc.1, hc.2, congrArg Prod.fst h.symm, congrArg Prod.snd h.symm⟩
  · exact absurd h (by simp)

theorem buf_read_do_le_eq_some {size : Nat} {b : BufViewState} {v : Nat} {b2 : BufViewState}
    (h : buf_read_do_le size b = some (v, b2)) :
    size ≤ b.remaining ∧ b.reader_index + size ≤ b.buf.length ∧
      v = fromLeBytes ((b.buf.drop b.reader_index).take size) ∧
      b2 = { b with reader_index := b.reader_index + size } := by
  unfold buf_read_do_le at h
  split at h
  · rename_i hc
    injection h with h
    exact ⟨hc.1, hc.2, congrArg Prod.fst h.symm, congrArg Prod.snd h.symm⟩
  · exact absurd h (by simp)
theorem buf_read_do_be_eq_none_iff {size : Nat} {b : BufViewState} (hinv : BufInv b) :
    buf_read_do_be size b = none ↔ b.remaining < size := by
  rcases hinv with ⟨h1, h2⟩
  unfold buf_read_do_be BufViewState.remaining
  split
  · rename_i hc
    simp
    omega
  · rename_i hc
    simp
    omega

theorem buf_read_do_le_eq_none_iff {size : Nat} {b : BufViewState} (hinv : BufInv b) :
    buf_read_do_le size b = none ↔ b.remaining < size := by
  rcases hinv with ⟨h1, h2⟩
  unfold buf_read_do_le BufViewState.remaining
  split
  · rename_i hc
    simp
    omega
  · rename_i hc
    simp
    omega

theorem read_u8_eq_none_iff {b : BufViewState} (hinv : BufInv b) :
    b.read_u8 = none ↔ b.remaining < 1 := by
  rcases hinv with ⟨h1, h2⟩
  unfold BufViewState.read_u8 BufViewState.remaining
  split
  · rename_i hc
    have hlt : b.reader_index < b.buf.length := by omega
    have hg : b.buf.get? b.reader_index = some (b.buf.get ⟨b.reader_index, hlt⟩) :=
      List.get?_eq_get hlt
    rw [hg]
    simp
    omega
  · rename_i hc
    simp
    omega

theorem read_bytes_eq_some {b : BufViewState} {dest : List Nat}
    {n : Nat} {d2 : List Nat} {b2 : BufViewState}
    (h : b.read_bytes dest = some (n, d2, b2)) :
    dest.length ≤ b.remaining ∧ b.reader_index + dest.length ≤ b.buf.length ∧
      n = dest.length ∧
      d2 = (b.buf.drop b.reader_index).take dest.length ∧
      b2 = { b with reader_index := b.reader_index + dest.length } := by
  unfold BufViewState.read_bytes at h
  simp only [] at h
  split at h
  · rename_i hc
    have hcl : (if dest.length < b.remaining then dest.length else b.remaining) = dest.length := by
      split <;> omega
    rw [hcl] at h
    split at h
    · rename_i hc2
      injection h with h
      have h1 := congrArg Prod.fst h
      have h2 := congrArg (fun p => p.2.1) h
      have h3 := congrArg (fun p => p.2.2) h
      simp at h1 h2 h3
      exact ⟨hc, hc2, h1.symm, h2.symm, h3.symm⟩
    · exact absurd h (by simp)
  · exact absurd h (by simp)

theorem read_bytes_eq_none_iff {b : BufViewState} {dest : List Nat} (hinv : BufInv b) :
    b.read_bytes dest = none ↔ b.remaining < dest.length := by
  rcases hinv with ⟨h1, h2⟩
  unfold BufViewState.read_bytes
  simp only []
  split
  · rename_i hc
    have hcl : (if dest.length < b.remaining then dest.length else b.remaining) = dest.length := by
      split <;> omega
    rw [hcl]
    split
    · rename_i hc2
      simp
      unfold BufViewState.remaining at hc ⊢
      omega
    · rename_i hc2
      unfold BufViewState.remaining at hc
      simp
      unfold BufViewState.remaining
      omega
  · rename_i hc
    simp
    unfold BufViewState.remaining at hc ⊢
    omega

theorem get_u8_eq_some {b : BufViewState} {i v : Nat} {b2 : BufViewState}
    (h : b.get_u8 i = some (v, b2)) :
    i < b.buf.length ∧ b.buf.get? i = some v ∧ b2 = b := by
  unfold BufViewState.get_u8 at h
  split at h
  · rename_i hc
    rcases Option.map_eq_some'.mp h with ⟨v0, hv0, heq⟩
    simp at heq
    exact ⟨hc, heq.1 ▸ hv0, heq.2.symm⟩
  · exact absurd h (by simp)

theorem get_u8_eq_none_iff {b : BufViewState} {i : Nat} :
    b.get_u8 i = none ↔ b.buf.length ≤ i := by
  unfold BufViewState.get_u8
  split
  · rename_i hc
    have hg : b.buf.get? i = some (b.buf.get ⟨i, hc⟩) := List.get?_eq_get hc
    rw [hg]
    simp
    omega
  · rename_i hc
    simp
    omega

theorem buf_get_do_be_eq_some {size i : Nat} {b : BufViewState} {v : Nat} {b2 : BufViewState}
    (h : buf_get_do_be size i b = some (v, b2)) :
    i + size ≤ b.buf.length ∧ v = fromBeBytes ((b.buf.drop i).take size) ∧ b2 = b := by
  unfold buf_get_do_be at h
  split at h
  · rename_i hc
    injection h with h
    exact ⟨hc, congrArg Prod.fst h.symm, congrArg Prod.snd h.symm⟩
  · exact absurd h (by simp)

theorem buf_get_do_le_eq_some {size i : Nat} {b : BufViewState} {v : Nat} {b2 : BufViewState}
    (h : buf_get_do_le size i b = some (v, b2)) :
    i + size ≤ b.buf.length ∧ v = fromLeBytes ((b.buf.drop i).take size) ∧ b2 = b := by
  unfold buf_get_do_le at h
  split at h
  · rename_i hc
    injection h with h
    exact ⟨hc, congrArg Prod.fst h.symm, congrArg Prod.snd h.symm⟩
  · exact absurd h (by simp)

theorem buf_get_do_be_eq_none_iff {size i : Nat} {b : BufViewState} :
    buf_get_do_be size i b = none ↔ b.buf.length < i + size := by
  unfold buf_get_do_be
  split <;> rename_i hc <;> simp <;> omega

theorem buf_get_do_le_eq_none_iff {size i : Nat} {b : BufViewState} :
    buf_get_do_le size i b = none ↔ b.buf.length < i + size := by
  unfold buf_get_do_le
  split <;> rename_i hc <;> simp <;> omega

theorem get_bytes_eq_some {b : BufViewState} {i : Nat} {dest : List Nat}
    {n : Nat} {d2 : List Nat} {b2 : BufViewState}
    (h : b.get_bytes i dest = some (n, d2, b2)) :
    i < b.buf.length ∧ n = min dest.length (b.buf.length - i) ∧
      d2 = (b.buf.drop i).take n ++ dest.drop n ∧ b2 = b := by
  unfold BufViewState.get_bytes at h
  simp only [] at h
  split at h
  · rename_i hc
    injection h with h
    have h1 := congrArg Prod.fst h
    have h2 := congrArg (fun p => p.2.1) h
    have h3 := congrArg (fun p => p.2.2) h
    simp at h1 h2 h3
    have hmin : (if i + dest.length ≤ b.buf.length then dest.length else b.buf.length - i)
        = min dest.length (b.buf.length - i) := by
      split <;> omega
    refine ⟨hc, ?_, ?_, h3.symm⟩
    · rw [← h1, hmin]
    · rw [← h2, ← h1]
  · exact absurd h (by simp)

theorem get_bytes_eq_none_iff {b : BufViewState} {i : Nat} {dest : List Nat} :
    b.get_bytes i dest = none ↔ b.buf.length ≤ i := by
  unfold BufViewState.get_bytes
  simp only []
  split <;> rename_i hc <;> simp <;> omega

theorem write_u8_eq_some {b : BufViewState} {v : Nat} {b2 : BufViewState}
    (h : BufViewMut.write_u8 b v = some b2) :
    b.writer_index + 1 ≤ b.buf.length ∧
      b2 = { b with buf := b.buf.set b.writer_index (v % 256),
                    writer_index := b.writer_index + 1 } := by
  unfold BufViewMut.write_u8 at h
  split at h
  · rename_i hc
    injection h with h
    exact ⟨hc, h.symm⟩
  · exact absurd h (by simp)

theorem write_u8_eq_none_iff {b : BufViewState} {v : Nat} :
    BufViewMut.write_u8 b v = none ↔ b.buf.length < b.writer_index + 1 := by
  unfold BufViewMut.write_u8
  split <;> rename_i hc <;> simp <;> omega

theorem write_bytes_eq_some {b : BufViewState} {src : List Nat} {b2 : BufViewState}
    (h : BufViewMut.write_bytes b src = some b2) :
    b.writer_index + src.length ≤ b.buf.length ∧
      b2 = { b with buf := setSlice b.buf b.writer_index src,
                    writer_index := b.writer_index + src.length } := by
  unfold BufViewMut.write_bytes at h
  split at h
  · rename_i hc
    injection h with h
    exact ⟨hc, h.symm⟩
  · exact absurd h (by simp)

theorem write_bytes_eq_none_iff {b : BufViewState} {src : List Nat} :
    BufViewMut.write_bytes b src = none ↔ b.buf.length < b.writer_index + src.length := by
  unfold BufViewMut.write_bytes
  split <;> rename_i hc <;> simp <;> omega

theorem write_bytes_uncheck_eq_some {b : BufViewState} {src : List Nat}
    {n : Nat} {b2 : BufViewState}
    (h : BufViewMut.write_bytes_uncheck b src = some (n, b2)) :
    b.writer_index ≤ b.buf.length ∧ n = b.buf.length - b.writer_index ∧ n ≤ src.length ∧
      b2 = { b with buf := b.buf.take b.writer_index ++ src.take n } := by
  unfold BufViewMut.write_bytes_uncheck at h
  simp only [] at h
  split at h
  · rename_i hc
    split at h
    · rename_i hg
      injection h with h
      have h1 := congrArg Prod.fst h
      have h2 := congrArg Prod.snd h
      simp at h1 h2
      refine ⟨hg.1, by omega, by omega, ?_⟩
      rw [← h2, ← h1]
    · exact absurd h (by simp)
  · rename_i hc
    split at h
    · rename_i hg
      injection h with h
      have h1 := congrArg Prod.fst h
      have h2 := congrArg Prod.snd h
      simp at h1 h2
      refine ⟨hg.1, by omega, by omega, ?_⟩
      rw [← h2, ← h1]
      simp
    · exact absurd h (by simp)

theorem set_u8_eq_some {b : BufViewState} {i v : Nat} {b2 : BufViewState}
    (h : BufViewMut.set_u8 b i v = some b2) :
    i < b.buf.length ∧ b2 = { b with buf := b.buf.set i (v % 256) } := by
  unfold BufViewMut.set_u8 at h
  split at h
  · rename_i hc
    injection h with h
    exact ⟨hc, h.symm⟩
  · exact absurd h (by simp)

theorem set_bytes_eq_some {b : BufViewState} {i : Nat} {src : List Nat} {b2 : BufViewState}
    (h : BufViewMut.set_bytes b i src = some b2) :
    i + src.length ≤ b.buf.length ∧ b2 = { b with buf := setSlice b.buf i src } := by
  unfold BufViewMut.set_bytes at h
  split at h
  · rename_i hc
    injection h with h
    exact ⟨hc, h.symm⟩
  · exact absurd h (by simp)

theorem set_bytes_eq_none_iff {b : BufViewState} {i : Nat} {src : List Nat} :
    BufViewMut.set_bytes b i src = none ↔ b.buf.length < i + src.length := by
  unfold BufViewMut.set_bytes
  split <;> rename_i hc <;> simp <;> omega

/-! ## A uniform view of every state-changing operation (for the invariant claim) -/

/-- One constructor per public operation of the two views (the multi-byte
read/get/write/set families are covered generically: every `read_<T>[_le]`
is `buf_read_do_be/le` at `sizeof(T)`, every `write_<T>[_le]` is
`write_bytes` on a `sizeof(T)`-byte encoding, and similarly for get/set). -/
inductive Op where
  | read_u8_op : Op
  | read_i8_op : Op
  | read_be : Nat → Op
  | read_le : Nat → Op
  | read_bytes_op : List Nat → Op
  | get_u8_op : Nat → Op
  | get_i8_op : Nat → Op
  | get_be : Nat → Nat → Op
  | get_le : Nat → Nat → Op
  | get_bytes_op : Nat → List Nat → Op
  | write_u8_op : Nat → Op
  | write_bytes_op : List Nat → Op
  | write_uncheck_op : List Nat → Op
  | set_u8_op : Nat → Nat → Op
  | set_bytes_op : Nat → List Nat → Op
  | set_reader_op : Nat → Op
  | set_writer_op : Nat → Op
  | set_index_op : Nat → Nat → Op
  | clear_op : Op

/-- Run an operation, keeping only the state transition. -/
def apply_op : Op → BufViewState → Option BufViewState
  | .read_u8_op, b => b.read_u8.map Prod.snd
  | .read_i8_op, b => b.read_i8.map Prod.snd
  | .read_be size, b => (buf_read_do_be size b).map Prod.snd
  | .read_le size, b => (buf_read_do_le size b).map Prod.snd
  | .read_bytes_op dest, b => (b.read_bytes dest).map (fun p => p.2.2)
  | .get_u8_op i, b => (b.get_u8 i).map Prod.snd
  | .get_i8_op i, b => (b.get_i8 i).map Prod.snd
  | .get_be size i, b => (buf_get_do_be size i b).map Prod.snd
  | .get_le size i, b => (buf_get_do_le size i b).map Prod.snd
  | .get_bytes_op i dest, b => (b.get_bytes i dest).map (fun p => p.2.2)
  | .write_u8_op v, b => BufViewMut.write_u8 b v
  | .write_bytes_op src, b => BufViewMut.write_bytes b src
  | .write_uncheck_op src, b => (BufViewMut.write_bytes_uncheck b src).map Prod.snd
  | .set_u8_op i v, b => BufViewMut.set_u8 b i v
  | .set_bytes_op i src, b => BufViewMut.set_bytes b i src
  | .set_reader_op i, b => b.set_reader_index i
  | .set_writer_op i, b => b.set_writer_index i
  | .set_index_op r w, b => b.set_index r w
  | .clear_op, b => some b.clear

theorem map_snd_eq_some {α : Type} {o : Option (α × BufViewState)} {b2 : BufViewState}
    (h : o.map Prod.snd = some b2) : ∃ v, o = some (v, b2) := by
  rcases Option.map_eq_some'.mp h with ⟨p, hp, hs⟩
  exact ⟨p.1, by rw [hp, ← hs]⟩

theorem map_third_eq_some {o : Option (Nat × List Nat × BufViewState)} {b2 : BufViewState}
    (h : o.map (fun p => p.2.2) = some b2) : ∃ n d, o = some (n, d, b2) := by
  rcases Option.map_eq_some'.mp h with ⟨p, hp, hs⟩
  exact ⟨p.1, p.2.1, by rw [hp, ← hs]⟩
/-- C2: every operation of either view that completes without faulting
preserves the invariant `0 ≤ reader_index ≤ writer_index ≤ capacity`, and
every successful construction (`wrap` / `wrap_with` of both views)
establishes it. -/
theorem invariant_preserved :
    (∀ (op : Op) (b b2 : BufViewState), BufInv b → apply_op op b = some b2 → BufInv b2) ∧
    (∀ buf r w v, BufView.wrap_with buf r w = some v → BufInv v) ∧
    (∀ buf r w v, BufViewMut.wrap_with buf r w = some v → BufInv v) ∧
    (∀ buf v, BufView.wrap buf = some v → BufInv v) ∧
    (∀ buf v, BufViewMut.wrap buf = some v → BufInv v) := by
  have hwrapv : ∀ buf r w v, BufView.wrap_with buf r w = some v → BufInv v := by
    intro buf r w v h
    unfold BufView.wrap_with at h
    split at h
    · rename_i hc
      injection h with h
      rw [← h]
      exact ⟨hc.1, hc.2⟩
    · exact absurd h (by simp)
  have hwrapm : ∀ buf r w v, BufViewMut.wrap_with buf r w = some v → BufInv v := by
    intro buf r w v h
    unfold BufViewMut.wrap_with at h
    split at h
    · rename_i hc
      injection h with h
      rw [← h]
      exact ⟨hc.1, hc.2⟩
    · exact absurd h (by simp)
  refine ⟨?_, hwrapv, hwrapm, fun buf v h => hwrapv buf 0 buf.length v h,
          fun buf v h => hwrapm buf 0 0 v h⟩
  intro op b b2 hinv h
  rcases hinv with ⟨h1, h2⟩
  cases op with
  | read_u8_op =>
    rcases map_snd_eq_some h with ⟨v, hv⟩
    rcases read_u8_eq_some hv with ⟨hr, _, hb2⟩
    unfold BufViewState.remaining at hr
    rw [hb2]
    refine ⟨?_, ?_⟩
    · show b.reader_index + 1 ≤ b.writer_index
      omega
    · show b.writer_index ≤ b.buf.length
      exact h2
  | read_i8_op =>
    rcases map_snd_eq_some h with ⟨v, hv⟩
    unfold BufViewState.read_i8 at hv
    rcases Option.map_eq_some'.mp hv with ⟨p, hp, hs⟩
    have hps : p.2 = b2 := congrArg Prod.snd hs
    rcases read_u8_eq_some (hp.trans (congrArg some (Prod.mk.eta.symm))) with ⟨hr, _, hb2⟩
    unfold BufViewState.remaining at hr
    rw [← hps, hb2]
    refine ⟨?_, ?_⟩
    · show b.reader_index + 1 ≤ b.writer_index
      omega
    · show b.writer_index ≤ b.buf.length
      exact h2
  | read_be size =>
    rcases map_snd_eq_some h with ⟨v, hv⟩
    rcases buf_read_do_be_eq_some hv with ⟨hr, _, _, hb2⟩
    unfold BufViewState.remaining at hr
    rw [hb2]
    refine ⟨?_, ?_⟩
    · show b.reader_index + size ≤ b.writer_index
      omega
    · show b.writer_index ≤ b.buf.length
      exact h2
  | read_le size =>
    rcases map_snd_eq_some h with ⟨v, hv⟩
    rcases buf_read_do_le_eq_some hv with ⟨hr, _, _, hb2⟩
    unfold BufViewState.remaining at hr
    rw [hb2]
    refine ⟨?_, ?_⟩
    · show b.reader_index + size ≤ b.writer_index
      omega
    · show b.writer_index ≤ b.buf.length
      exact h2
  | read_bytes_op dest =>
    rcases map_third_eq_some h with ⟨n, d, hv⟩
    rcases read_bytes_eq_some hv with ⟨hr, _, _, _, hb2⟩
    unfold BufViewState.remaining at hr
    rw [hb2]
    refine ⟨?_, ?_⟩
    · show b.reader_index + dest.length ≤ b.writer_index
      omega
    · show b.writer_index ≤ b.buf.length
      exact h2
  | get_u8_op i =>
    rcases map_snd_eq_some h with ⟨v, hv⟩
    rcases get_u8_eq_some hv with ⟨_, _, hb2⟩
    rw [hb2]
    exact ⟨h1, h2⟩
  | get_i8_op i =>
    rcases map_snd_eq_some h with ⟨v, hv⟩
    unfold BufViewState.get_i8 at hv
    rcases Option.map_eq_some'.mp hv with ⟨p, hp, hs⟩
    have hps : p.2 = b2 := congrArg Prod.snd hs
    rcases get_u8_eq_some (hp.trans (congrArg some (Prod.mk.eta.symm))) with ⟨_, _, hb2⟩
    rw [← hps, hb2]
    exact ⟨h1, h2⟩
  | get_be size i =>
    rcases map_snd_eq_some h with ⟨v, hv⟩
    rcases buf_get_do_be_eq_some hv with ⟨_, _, hb2⟩
    rw [hb2]
    exact ⟨h1, h2⟩
  | get_le size i =>
    rcases map_snd_eq_some h with ⟨v, hv⟩
    rcases buf_get_do_le_eq_some hv with ⟨_, _, hb2⟩
    rw [hb2]
    exact ⟨h1, h2⟩
  | get_bytes_op i dest =>
    rcases map_third_eq_some h with ⟨n, d, hv⟩
    rcases get_bytes_eq_some hv with ⟨_, _, _, hb2⟩
    rw [hb2]
    exact ⟨h1, h2⟩
  | write_u8_op v =>
    rcases write_u8_eq_some h with ⟨hw, hb2⟩
    rw [hb2]
    refine ⟨?_, ?_⟩
    · show b.reader_index ≤ b.writer_index + 1
      omega
    · show b.writer_index + 1 ≤ (b.buf.set b.writer_index (v % 256)).length
      rw [List.length_set]
      exact hw
  | write_bytes_op src =>
    rcases write_bytes_eq_some h with ⟨hw, hb2⟩
    rw [hb2]
    refine ⟨?_, ?_⟩
    · show b.reader_index ≤ b.writer_index + src.length
      omega
    · show b.writer_index + src.length ≤ (setSlice b.buf b.writer_index src).length
      rw [setSlice_length b.buf b.writer_index src hw]
      exact hw
  | write_uncheck_op src =>
    rcases map_snd_eq_some h with ⟨n, hv⟩
    rcases write_bytes_uncheck_eq_some hv with ⟨hw, hn, hns, hb2⟩
    rw [hb2]
    refine ⟨?_, ?_⟩
    · show b.reader_index ≤ b.writer_index
      exact h1
    · show b.writer_index ≤ (b.buf.take b.writer_index ++ src.take n).length
      rw [List.length_append, List.length_take, List.length_take]
      omega
  | set_u8_op i v =>
    rcases set_u8_eq_some h with ⟨hw, hb2⟩
    rw [hb2]
    refine ⟨h1, ?_⟩
    show b.writer_index ≤ (b.buf.set i (v % 256)).length
    rw [List.length_set]
    exact h2
  | set_bytes_op i src =>
    rcases set_bytes_eq_some h with ⟨hw, hb2⟩
    rw [hb2]
    refine ⟨h1, ?_⟩
    show b.writer_index ≤ (setSlice b.buf i src).length
    rw [setSlice_length b.buf i src hw]
    exact h2
  | set_reader_op i =>
    simp only [apply_op] at h
    unfold BufViewState.set_reader_index at h
    split at h
    · rename_i hc
      injection h with h
      rw [← h]
      exact ⟨hc.2, h2⟩
    · exact absurd h (by simp)
  | set_writer_op i =>
    simp only [apply_op] at h
    unfold BufViewState.set_writer_index at h
    split at h
    · rename_i hc
      injection h with h
      rw [← h]
      exact ⟨hc.2, hc.1⟩
    · exact absurd h (by simp)
  | set_index_op r w =>
    simp only [apply_op] at h
    unfold BufViewState.set_index at h
    split at h
    · rename_i hc
      injection h with h
      rw [← h]
      exact ⟨hc.1, hc.2⟩
    · exact absurd h (by simp)
  | clear_op =>
    simp only [apply_op] at h
    injection h with h
    rw [← h]
    exact ⟨Nat.le_refl 0, Nat.zero_le _⟩

/-! ## Evaluation helpers for success cases -/

theorem get?_set_self (l : List Nat) (i a : Nat) (h : i < l.length) :
    (l.set i a).get? i = some a := by
  rw [List.get?_eq_getElem?, List.getElem?_set_self', List.getElem?_eq_getElem h]
  rfl

theorem buf_read_do_be_eval {size : Nat} {b : BufViewState}
    (h1 : size ≤ b.remaining) (h2 : b.reader_index + size ≤ b.buf.length) :
    buf_read_do_be size b =
      some (fromBeBytes ((b.buf.drop b.reader_index).take size),
            { b with reader_index := b.reader_index + size }) := by
  unfold buf_read_do_be
  rw [if_pos ⟨h1, h2⟩]

theorem buf_read_do_le_eval {size : Nat} {b : BufViewState}
    (h1 : size ≤ b.remaining) (h2 : b.reader_index + size ≤ b.buf.length) :
    buf_read_do_le size b =
      some (fromLeBytes ((b.buf.drop b.reader_index).take size),
            { b with reader_index := b.reader_index + size }) := by
  unfold buf_read_do_le
  rw [if_pos ⟨h1, h2⟩]

theorem buf_get_do_be_eval {size i : Nat} {b : BufViewState}
    (h : i + size ≤ b.buf.length) :
    buf_get_do_be size i b = some (fromBeBytes ((b.buf.drop i).take size), b) := by
  unfold buf_get_do_be
  rw [if_pos h]

theorem buf_get_do_le_eval {size i : Nat} {b : BufViewState}
    (h : i + size ≤ b.buf.length) :
    buf_get_do_le size i b = some (fromLeBytes ((b.buf.drop i).take size), b) := by
  unfold buf_get_do_le
  rw [if_pos h]

theorem write_bytes_eval {b : BufViewState} {src : List Nat}
    (h : b.writer_index + src.length ≤ b.buf.length) :
    BufViewMut.write_bytes b src =
      some { b with buf := setSlice b.buf b.writer_index src,
                    writer_index := b.writer_index + src.length } := by
  unfold BufViewMut.write_bytes
  rw [if_pos h]

theorem set_bytes_eval {b : BufViewState} {i : Nat} {src : List Nat}
    (h : i + src.length ≤ b.buf.length) :
    BufViewMut.set_bytes b i src = some { b with buf := setSlice b.buf i src } := by
  unfold BufViewMut.set_bytes
  rw [if_pos h]

theorem write_u8_eval {b : BufViewState} {v : Nat}
    (h : b.writer_index + 1 ≤ b.buf.length) :
    BufViewMut.write_u8 b v =
      some { b with buf := b.buf.set b.writer_index (v % 256),
                    writer_index := b.writer_index + 1 } := by
  unfold BufViewMut.write_u8
  rw [if_pos h]

theorem set_u8_eval {b : BufViewState} {i v : Nat} (h : i < b.buf.length) :
    BufViewMut.set_u8 b i v = some { b with buf := b.buf.set i (v % 256) } := by
  unfold BufViewMut.set_u8
  rw [if_pos h]

theorem read_u8_eval {b : BufViewState} {v : Nat}
    (h1 : 1 ≤ b.remaining) (h2 : b.buf.get? b.reader_index = some v) :
    b.read_u8 = some (v, { b with reader_index := b.reader_index + 1 }) := by
  unfold BufViewState.read_u8
  rw [if_pos h1, h2]
  rfl

theorem get_u8_eval {b : BufViewState} {i v : Nat}
    (h1 : i < b.buf.length) (h2 : b.buf.get? i = some v) :
    b.get_u8 i = some (v, b) := by
  unfold BufViewState.get_u8
  rw [if_pos h1, h2]
  rfl

/-! ## Round-trip building blocks -/

theorem write_then_decode_state {b : BufViewState} {src : List Nat}
    (hrw : b.reader_index = b.writer_index)
    (hcap : b.writer_index + src.length ≤ b.buf.length) :
    ∃ b2, BufViewMut.write_bytes b src = some b2 ∧
      b2.reader_index = b.reader_index ∧
      b2.writer_index = b.writer_index + src.length ∧
      b2.buf.length = b.buf.length ∧
      (b2.buf.drop b2.reader_index).take src.length = src := by
  refine ⟨_, write_bytes_eval hcap, rfl, rfl, setSlice_length _ _ _ hcap, ?_⟩
  show ((setSlice b.buf b.writer_index src).drop b.reader_index).take src.length = src
  rw [hrw]
  exact setSlice_extract _ _ _ hcap

theorem roundtrip_be_core {size v : Nat} {b : BufViewState}
    (hrw : b.reader_index = b.writer_index)
    (hcap : b.writer_index + size ≤ b.buf.length) (hv : v < 256 ^ size) :
    ∃ b2 b3, BufViewMut.write_bytes b (toBeBytes size v) = some b2 ∧
      buf_read_do_be size b2 = some (v, b3) := by
  have hlen := toBeBytes_length size v
  have hcap2 : b.writer_index + (toBeBytes size v).length ≤ b.buf.length := by
    rw [hlen]; exact hcap
  obtain ⟨b2, hw, hr, hwr, hbl, hex⟩ := write_then_decode_state hrw hcap2
  rw [hlen] at hex
  have hrem : size ≤ b2.remaining := by
    unfold BufViewState.remaining
    rw [hr, hwr, hlen, hrw]
    omega
  have hb2 : b2.reader_index + size ≤ b2.buf.length := by
    rw [hr, hbl, hrw]
    omega
  have hval : fromBeBytes ((b2.buf.drop b2.reader_index).take size) = v := by
    rw [hex, fromBeBytes_toBeBytes, Nat.mod_eq_of_lt hv]
  refine ⟨b2, { b2 with reader_index := b2.reader_index + size }, hw, ?_⟩
  rw [buf_read_do_be_eval hrem hb2, hval]

theorem roundtrip_le_core {size v : Nat} {b : BufViewState}
    (hrw : b.reader_index = b.writer_index)
    (hcap : b.writer_index + size ≤ b.buf.length) (hv : v < 256 ^ size) :
    ∃ b2 b3, BufViewMut.write_bytes b (toLeBytes size v) = some b2 ∧
      buf_read_do_le size b2 = some (v, b3) := by
  have hlen := toLeBytes_length size v
  have hcap2 : b.writer_index + (toLeBytes size v).length ≤ b.buf.length := by
    rw [hlen]; exact hcap
  obtain ⟨b2, hw, hr, hwr, hbl, hex⟩ := write_then_decode_state hrw hcap2
  rw [hlen] at hex
  have hrem : size ≤ b2.remaining := by
    unfold BufViewState.remaining
    rw [hr, hwr, hlen, hrw]
    omega
  have hb2 : b2.reader_index + size ≤ b2.buf.length := by
    rw [hr, hbl, hrw]
    omega
  have hval : fromLeBytes ((b2.buf.drop b2.reader_index).take size) = v := by
    rw [hex, fromLeBytes_toLeBytes, Nat.mod_eq_of_lt hv]
  refine ⟨b2, { b2 with reader_index := b2.reader_index + size }, hw, ?_⟩
  rw [buf_read_do_le_eval hrem hb2, hval]

theorem roundtrip_be_signed_core {size : Nat} {w : Int} {b : BufViewState}
    (hlo : -((256 : Int) ^ size) ≤ 2 * w) (hhi : 2 * w < (256 : Int) ^ size)
    (hrw : b.reader_index = b.writer_index)
    (hcap : b.writer_index + size ≤ b.buf.length) :
    ∃ b2 b3, BufViewMut.write_bytes b (toBeBytesSigned size w) = some b2 ∧
      buf_read_do_be_signed size b2 = some (w, b3) := by
  obtain ⟨b2, b3, hw2, hr2⟩ :=
    roundtrip_be_core (v := toNatBits size w) hrw hcap (toNatBits_lt size w)
  refine ⟨b2, b3, hw2, ?_⟩
  unfold buf_read_do_be_signed
  rw [hr2]
  simp [asSigned_toNatBits size w hlo hhi]

theorem roundtrip_le_signed_core {size : Nat} {w : Int} {b : BufViewState}
    (hlo : -((256 : Int) ^ size) ≤ 2 * w) (hhi : 2 * w < (256 : Int) ^ size)
    (hrw : b.reader_index = b.writer_index)
    (hcap : b.writer_index + size ≤ b.buf.length) :
    ∃ b2 b3, BufViewMut.write_bytes b (toLeBytesSigned size w) = some b2 ∧
      buf_read_do_le_signed size b2 = some (w, b3) := by
  obtain ⟨b2, b3, hw2, hr2⟩ :=
    roundtrip_le_core (v := toNatBits size w) hrw hcap (toNatBits_lt size w)
  refine ⟨b2, b3, hw2, ?_⟩
  unfold buf_read_do_le_signed
  rw [hr2]
  simp [asSigned_toNatBits size w hlo hhi]

theorem set_get_be_core {size i v : Nat} {b : BufViewState}
    (hcap : i + size ≤ b.buf.length) (hv : v < 256 ^ size) :
    ∃ b2, BufViewMut.set_bytes b i (toBeBytes size v) = some b2 ∧
      buf_get_do_be size i b2 = some (v, b2) := by
  have hlen := toBeBytes_length size v
  have hcap2 : i + (toBeBytes size v).length ≤ b.buf.length := by rw [hlen]; exact hcap
  refine ⟨_, set_bytes_eval hcap2, ?_⟩
  have hbl : (setSlice b.buf i (toBeBytes size v)).length = b.buf.length :=
    setSlice_length _ _ _ hcap2
  have hb2 : i + size ≤ (setSlice b.buf i (toBeBytes size v)).length := by
    rw [hbl]; exact hcap
  rw [buf_get_do_be_eval (b := { b with buf := setSlice b.buf i (toBeBytes size v) }) hb2]
  have hex := setSlice_extract b.buf i (toBeBytes size v) hcap2
  rw [hlen] at hex
  show some (fromBeBytes (((setSlice b.buf i (toBeBytes size v)).drop i).take size), _) = _
  rw [hex, fromBeBytes_toBeBytes, Nat.mod_eq_of_lt hv]

theorem set_get_le_core {size i v : Nat} {b : BufViewState}
    (hcap : i + size ≤ b.buf.length) (hv : v < 256 ^ size) :
    ∃ b2, BufViewMut.set_bytes b i (toLeBytes size v) = some b2 ∧
      buf_get_do_le size i b2 = some (v, b2) := by
  have hlen := toLeBytes_length size v
  have hcap2 : i + (toLeBytes size v).length ≤ b.buf.length := by rw [hlen]; exact hcap
  refine ⟨_, set_bytes_eval hcap2, ?_⟩
  have hbl : (setSlice b.buf i (toLeBytes size v)).length = b.buf.length :=
    setSlice_length _ _ _ hcap2
  have hb2 : i + size ≤ (setSlice b.buf i (toLeBytes size v)).length := by
    rw [hbl]; exact hcap
  rw [buf_get_do_le_eval (b := { b with buf := setSlice b.buf i (toLeBytes size v) }) hb2]
  have hex := setSlice_extract b.buf i (toLeBytes size v) hcap2
  rw [hlen] at hex
  show some (fromLeBytes (((setSlice b.buf i (toLeBytes size v)).drop i).take size), _) = _
  rw [hex, fromLeBytes_toLeBytes, Nat.mod_eq_of_lt hv]

theorem u8_roundtrip_core {v : Nat} {b : BufViewState} (hv : v < 256)
    (hrw : b.reader_index = b.writer_index)
    (hcap : b.writer_index + 1 ≤ b.buf.length) :
    ∃ b2 b3, BufViewMut.write_u8 b v = some b2 ∧ b2.read_u8 = some (v, b3) := by
  have hmod : v % 256 = v := Nat.mod_eq_of_lt hv
  refine ⟨{ b with buf := b.buf.set b.writer_index (v % 256), writer_index := b.writer_index + 1 }, { b with buf := b.buf.set b.writer_index (v % 256), writer_index := b.writer_index + 1, reader_index := b.reader_index + 1 }, write_u8_eval hcap, ?_⟩
  have h1 : 1 ≤ BufViewState.remaining { b with buf := b.buf.set b.writer_index (v % 256), writer_index := b.writer_index + 1 } := by
    unfold BufViewState.remaining
    simp
    omega
  have h2 : (b.buf.set b.writer_index (v % 256)).get? b.reader_index = some v := by
    rw [hrw, hmod]
    exact get?_set_self _ _ _ (by omega)
  exact read_u8_eval h1 h2

theorem set_get_u8_core {i v : Nat} {b : BufViewState} (hv : v < 256)
    (hcap : i < b.buf.length) :
    ∃ b2, BufViewMut.set_u8 b i v = some b2 ∧ b2.get_u8 i = some (v, b2) := by
  have hmod : v % 256 = v := Nat.mod_eq_of_lt hv
  refine ⟨_, set_u8_eval hcap, ?_⟩
  apply get_u8_eval
  · show i < (b.buf.set i (v % 256)).length
    rw [List.length_set]
    exact hcap
  · show (b.buf.set i (v % 256)).get? i = some v
    rw [hmod]
    exact get?_set_self _ _ _ hcap

theorem set_get_i8_core {i : Nat} {w : Int} {b : BufViewState}
    (hlo : -(256 : Int) ≤ 2 * w) (hhi : 2 * w < 256) (hcap : i < b.buf.length) :
    ∃ b2, BufViewMut.set_u8 b i (toNatBits 1 w) = some b2 ∧ b2.get_i8 i = some (w, b2) := by
  have hv : toNatBits 1 w < 256 := by
    have := toNatBits_lt 1 w
    simpa using this
  obtain ⟨b2, hs, hg⟩ := set_get_u8_core hv hcap
  refine ⟨b2, hs, ?_⟩
  unfold BufViewState.get_i8
  rw [hg]
  have ha : asSigned 1 (toNatBits 1 w) = w := by
    apply asSigned_toNatBits
    · simpa using hlo
    · simpa using hhi
  simp [ha]

theorem set_get_be_signed_core {size i : Nat} {w : Int} {b : BufViewState}
    (hlo : -((256 : Int) ^ size) ≤ 2 * w) (hhi : 2 * w < (256 : Int) ^ size)
    (hcap : i + size ≤ b.buf.length) :
    ∃ b2, BufViewMut.set_bytes b i (toBeBytesSigned size w) = some b2 ∧
      buf_get_do_be_signed size i b2 = some (w, b2) := by
  obtain ⟨b2, hs, hg⟩ := set_get_be_core (v := toNatBits size w) hcap (toNatBits_lt size w)
  refine ⟨b2, hs, ?_⟩
  unfold buf_get_do_be_signed
  rw [hg]
  simp [asSigned_toNatBits size w hlo hhi]

theorem set_get_le_signed_core {size i : Nat} {w : Int} {b : BufViewState}
    (hlo : -((256 : Int) ^ size) ≤ 2 * w) (hhi : 2 * w < (256 : Int) ^ size)
    (hcap : i + size ≤ b.buf.length) :
    ∃ b2, BufViewMut.set_bytes b i (toLeBytesSigned size w) = some b2 ∧
      buf_get_do_le_signed size i b2 = some (w, b2) := by
  obtain ⟨b2, hs, hg⟩ := set_get_le_core (v := toNatBits size w) hcap (toNatBits_lt size w)
  refine ⟨b2, hs, ?_⟩
  unfold buf_get_do_le_signed
  rw [hg]
  simp [asSigned_toNatBits size w hlo hhi]

/-! ## Claim theorems -/

/-- C2 witness: concrete applications of `invariant_preserved` — `clear` on a
view of a 2-byte region with cursors (1,2), and `BufView::wrap_with` on a
1-byte region with cursors (1,1). -/
theorem invariant_preserved_witness :
    BufInv { buf := [7, 7], reader_index := 0, writer_index := 0 } ∧
    BufInv { buf := [5], reader_index := 1, writer_index := 1 } :=
  ⟨invariant_preserved.1 Op.clear_op
      { buf := [7, 7], reader_index := 1, writer_index := 2 }
      { buf := [7, 7], reader_index := 0, writer_index := 0 } (by decide) (by decide),
   invariant_preserved.2.1 [5] 1 1
      { buf := [5], reader_index := 1, writer_index := 1 } (by decide)⟩

/-- C3: for every width `size`, both byte orders, the sequential write→read
round trip (starting from `reader_index = writer_index` with at least `size`
bytes of write capacity) returns the written value, and the random-access
set→get round trip at any offset `i` with `i + size ≤ capacity` returns the
stored value.  Each multi-byte `write_<T>[_le]` / `read_<T>[_le]` /
`set_<T>[_le]` / `get_<T>[_le]` of the source is (definitionally) the
`write_bytes`/`buf_read_do_*`/`set_bytes`/`buf_get_do_*` conjunct below at
`size = sizeof(T)`, with `toNatBits`/`asSigned` giving the two's-complement
view for the signed types and bit patterns standing for the floats; the
one-byte operations `write_u8`/`read_u8`, `set_u8`/`get_u8`/`get_i8` have
their own conjuncts. -/
theorem primitive_roundtrip (size : Nat) (b : BufViewState) :
    (∀ v : Nat, v < 256 ^ size → b.reader_index = b.writer_index →
      b.writer_index + size ≤ b.buf.length →
      (∃ b2 b3, BufViewMut.write_bytes b (toBeBytes size v) = some b2 ∧
        buf_read_do_be size b2 = some (v, b3)) ∧
      (∃ b2 b3, BufViewMut.write_bytes b (toLeBytes size v) = some b2 ∧
        buf_read_do_le size b2 = some (v, b3))) ∧
    (∀ w : Int, -((256 : Int) ^ size) ≤ 2 * w → 2 * w < (256 : Int) ^ size →
      b.reader_index = b.writer_index → b.writer_index + size ≤ b.buf.length →
      (∃ b2 b3, BufViewMut.write_bytes b (toBeBytesSigned size w) = some b2 ∧
        buf_read_do_be_signed size b2 = some (w, b3)) ∧
      (∃ b2 b3, BufViewMut.write_bytes b (toLeBytesSigned size w) = some b2 ∧
        buf_read_do_le_signed size b2 = some (w, b3))) ∧
    (∀ i v : Nat, v < 256 ^ size → i + size ≤ b.buf.length →
      (∃ b2, BufViewMut.set_bytes b i (toBeBytes size v) = some b2 ∧
        buf_get_do_be size i b2 = some (v, b2)) ∧
      (∃ b2, BufViewMut.set_bytes b i (toLeBytes size v) = some b2 ∧
        buf_get_do_le size i b2 = some (v, b2))) ∧
    (∀ (i : Nat) (w : Int), -((256 : Int) ^ size) ≤ 2 * w → 2 * w < (256 : Int) ^ size →
      i + size ≤ b.buf.length →
      (∃ b2, BufViewMut.set_bytes b i (toBeBytesSigned size w) = some b2 ∧
        buf_get_do_be_signed size i b2 = some (w, b2)) ∧
      (∃ b2, BufViewMut.set_bytes b i (toLeBytesSigned size w) = some b2 ∧
        buf_get_do_le_signed size i b2 = some (w, b2))) ∧
    (∀ v : Nat, v < 256 → b.reader_index = b.writer_index →
      b.writer_index + 1 ≤ b.buf.length →
      ∃ b2 b3, BufViewMut.write_u8 b v = some b2 ∧ b2.read_u8 = some (v, b3)) ∧
    (∀ i v : Nat, v < 256 → i < b.buf.length →
      ∃ b2, BufViewMut.set_u8 b i v = some b2 ∧ b2.get_u8 i = some (v, b2)) ∧
    (∀ (i : Nat) (w : Int), -(256 : Int) ≤ 2 * w → 2 * w < 256 → i < b.buf.length →
      ∃ b2, BufViewMut.set_u8 b i (toNatBits 1 w) = some b2 ∧
        b2.get_i8 i = some (w, b2)) := by
  refine ⟨?_, ?_, ?_, ?_, ?_, ?_, ?_⟩
  · intro v hv hrw hcap
    exact ⟨roundtrip_be_core hrw hcap hv, roundtrip_le_core hrw hcap hv⟩
  · intro w hlo hhi hrw hcap
    exact ⟨roundtrip_be_signed_core hlo hhi hrw hcap,
           roundtrip_le_signed_core hlo hhi hrw hcap⟩
  · intro i v hv hcap
    exact ⟨set_get_be_core hcap hv, set_get_le_core hcap hv⟩
  · intro i w hlo hhi hcap
    exact ⟨set_get_be_signed_core hlo hhi hcap, set_get_le_signed_core hlo hhi hcap⟩
  · intro v hv hrw hcap
    exact u8_roundtrip_core hv hrw hcap
  · intro i v hv hcap
    exact set_get_u8_core hv hcap
  · intro i w hlo hhi hcap
    exact set_get_i8_core hlo hhi hcap

/-- C3 witness: the unsigned 16-bit round trip at value `0xABCD` on a fresh
2-byte `BufViewMut`. -/
theorem primitive_roundtrip_witness :
    (∃ b2 b3, BufViewMut.write_bytes
        { buf := [0, 0], reader_index := 0, writer_index := 0 }
        (toBeBytes 2 43981) = some b2 ∧ buf_read_do_be 2 b2 = some (43981, b3)) ∧
    (∃ b2 b3, BufViewMut.write_bytes
        { buf := [0, 0], reader_index := 0, writer_index := 0 }
        (toLeBytes 2 43981) = some b2 ∧ buf_read_do_le 2 b2 = some (43981, b3)) :=
  (primitive_roundtrip 2 { buf := [0, 0], reader_index := 0, writer_index := 0 }).1
    43981 (by decide) rfl (by decide)

/-- C4: `read_bytes(dest)` (identical in both views) faults exactly when
`remaining() < dest.length`; on success it copies exactly `dest.length`
bytes from offset `reader_index` (the whole of `dest` is overwritten with
that slice), advances `reader_index` by `dest.length`, and returns
`dest.length` — never a truncated copy. -/
theorem read_bytes_exact (b : BufViewState) (dest : List Nat) (hinv : BufInv b) :
    (b.read_bytes dest = none ↔ b.remaining < dest.length) ∧
    (∀ n d2 b2, b.read_bytes dest = some (n, d2, b2) →
      n = dest.length ∧
      d2 = (b.buf.drop b.reader_index).take dest.length ∧
      d2.length = dest.length ∧
      b2.reader_index = b.reader_index + dest.length ∧
      b2.writer_index = b.writer_index ∧ b2.buf = b.buf) := by
  refine ⟨read_bytes_eq_none_iff hinv, ?_⟩
  intro n d2 b2 h
  rcases read_bytes_eq_some h with ⟨hr, hb, hn, hd, hb2⟩
  refine ⟨hn, hd, ?_, ?_, ?_, ?_⟩
  · rw [hd]
    exact slice_length _ _ _ hb
  · rw [hb2]
  · rw [hb2]
  · rw [hb2]

/-- C4 witness: reading 2 bytes out of 3 available succeeds and reads exactly
2; the fault-iff part evaluated on the same state. -/
theorem read_bytes_exact_witness :
    (BufViewState.read_bytes { buf := [1, 2, 3], reader_index := 0, writer_index := 3 } [9, 9]
        = some (2, [1, 2], { buf := [1, 2, 3], reader_index := 2, writer_index := 3 })) ∧
    (2 : Nat) = ([9, 9] : List Nat).length := by
  have h := (read_bytes_exact { buf := [1, 2, 3], reader_index := 0, writer_index := 3 }
      [9, 9] (by decide)).2 2 [1, 2]
      { buf := [1, 2, 3], reader_index := 2, writer_index := 3 } (by decide)
  exact ⟨by decide, h.1⟩

/-- C5: `get_bytes(index, dest)` (identical in both views) faults exactly when
`index ≥ capacity`; for `index < capacity` it copies
`min(dest.length, capacity - index)` bytes from offset `index` (silently
truncating when `index + dest.length > capacity`), returns that count, and
leaves the view — in particular `reader_index` — completely unchanged. -/
theorem get_bytes_clamped (b : BufViewState) (index : Nat) (dest : List Nat) :
    (b.get_bytes index dest = none ↔ b.buf.length ≤ index) ∧
    (∀ n d2 b2, b.get_bytes index dest = some (n, d2, b2) →
      n = min dest.length (b.buf.length - index) ∧
      d2 = (b.buf.drop index).take n ++ dest.drop n ∧
      b2 = b) := by
  refine ⟨get_bytes_eq_none_iff, ?_⟩
  intro n d2 b2 h
  rcases get_bytes_eq_some h with ⟨hi, hn, hd, hb2⟩
  exact ⟨hn, hd, hb2⟩

/-- C5 witness: `get_bytes(2, dest)` with a 4-byte `dest` on a 3-byte region
truncates to 1 byte without faulting and leaves the view unchanged. -/
theorem get_bytes_clamped_witness :
    (1 : Nat) = min ([9, 9, 9, 9] : List Nat).length (([4, 5, 6] : List Nat).length - 2) ∧
    ([6, 9, 9, 9] : List Nat)
      = (([4, 5, 6] : List Nat).drop 2).take 1 ++ ([9, 9, 9, 9] : List Nat).drop 1 ∧
    { buf := [4, 5, 6], reader_index := 0, writer_index := 3 }
      = ({ buf := [4, 5, 6], reader_index := 0, writer_index := 3 } : BufViewState) :=
  (get_bytes_clamped { buf := [4, 5, 6], reader_index := 0, writer_index := 3 } 2
      [9, 9, 9, 9]).2 1 [6, 9, 9, 9]
    { buf := [4, 5, 6], reader_index := 0, writer_index := 3 } (by decide)

/-- C6: a sequential read of width `size` (generic `buf_read_do_*` arm, plus
the special one-byte `read_u8`/`read_i8`) faults exactly when
`remaining() < size` and on success advances `reader_index` by exactly
`size`, never past `writer_index`; a sequential write faults exactly when
`capacity - writer_index < size` (every `write_<T>[_le]` is `write_bytes`
on a `size`-byte encoding — the length conjunct — and `write_u8` is the
one-byte special case) and on success advances `writer_index` by exactly
`size`, never past the capacity. -/
theorem sequential_bounds (size v : Nat) (w : Int) (b : BufViewState) (hinv : BufInv b) :
    (buf_read_do_be size b = none ↔ b.remaining < size) ∧
    (buf_read_do_le size b = none ↔ b.remaining < size) ∧
    (b.read_u8 = none ↔ b.remaining < 1) ∧
    (b.read_i8 = none ↔ b.remaining < 1) ∧
    (∀ x b2, buf_read_do_be size b = some (x, b2) →
      b2.reader_index = b.reader_index + size ∧ b2.reader_index ≤ b2.writer_index) ∧
    (∀ x b2, buf_read_do_le size b = some (x, b2) →
      b2.reader_index = b.reader_index + size ∧ b2.reader_index ≤ b2.writer_index) ∧
    (∀ x b2, b.read_u8 = some (x, b2) →
      b2.reader_index = b.reader_index + 1 ∧ b2.reader_index ≤ b2.writer_index) ∧
    ((toBeBytes size v).length = size ∧ (toLeBytes size v).length = size ∧
      (toBeBytesSigned size w).length = size ∧ (toLeBytesSigned size w).length = size) ∧
    (∀ src : List Nat,
      (BufViewMut.write_bytes b src = none ↔
        b.buf.length - b.writer_index < src.length) ∧
      (∀ b2, BufViewMut.write_bytes b src = some b2 →
        b2.writer_index = b.writer_index + src.length ∧
        b2.writer_index ≤ b2.buf.length)) ∧
    ((BufViewMut.write_u8 b v = none ↔ b.buf.length - b.writer_index < 1) ∧
      (∀ b2, BufViewMut.write_u8 b v = some b2 →
        b2.writer_index = b.writer_index + 1 ∧ b2.writer_index ≤ b2.buf.length)) := by
  have h1 := hinv.1
  have h2 := hinv.2
  refine ⟨buf_read_do_be_eq_none_iff hinv, buf_read_do_le_eq_none_iff hinv,
          read_u8_eq_none_iff hinv, ?_, ?_, ?_, ?_, ?_, ?_, ?_⟩
  · unfold BufViewState.read_i8
    rw [Option.map_eq_none']
    exact read_u8_eq_none_iff hinv
  · intro x b2 h
    rcases buf_read_do_be_eq_some h with ⟨hr, _, _, hb2⟩
    unfold BufViewState.remaining at hr
    rw [hb2]
    exact ⟨rfl, by show b.reader_index + size ≤ b.writer_index; omega⟩
  · intro x b2 h
    rcases buf_read_do_le_eq_some h with ⟨hr, _, _, hb2⟩
    unfold BufViewState.remaining at hr
    rw [hb2]
    exact ⟨rfl, by show b.reader_index + size ≤ b.writer_index; omega⟩
  · intro x b2 h
    rcases read_u8_eq_some h with ⟨hr, _, hb2⟩
    unfold BufViewState.remaining at hr
    rw [hb2]
    exact ⟨rfl, by show b.reader_index + 1 ≤ b.writer_index; omega⟩
  · exact ⟨toBeBytes_length size v, toLeBytes_length size v,
           toBeBytes_length size _, toLeBytes_length size _⟩
  · intro src
    constructor
    · rw [write_bytes_eq_none_iff]
      omega
    · intro b2 h
      rcases write_bytes_eq_some h with ⟨hw, hb2⟩
      rw [hb2]
      refine ⟨rfl, ?_⟩
      show b.writer_index + src.length ≤ (setSlice b.buf b.writer_index src).length
      rw [setSlice_length _ _ _ hw]
      exact hw
  · constructor
    · rw [write_u8_eq_none_iff]
      omega
    · intro b2 h
      rcases write_u8_eq_some h with ⟨hw, hb2⟩
      rw [hb2]
      refine ⟨rfl, ?_⟩
      show b.writer_index + 1 ≤ (b.buf.set b.writer_index (v % 256)).length
      rw [List.length_set]
      exact hw

/-- C6 witness: on a full 3-byte view, a 4-byte read faults exactly because
`remaining() = 3 < 4`, and `write_u8` with `writer_index = capacity` faults
exactly because `capacity - writer_index = 0 < 1` (Scenario D). -/
theorem sequential_bounds_witness :
    (buf_read_do_be 4 { buf := [0, 0, 0], reader_index := 0, writer_index := 3 } = none ↔
      BufViewState.remaining { buf := [0, 0, 0], reader_index := 0, writer_index := 3 } < 4) ∧
    (BufViewMut.write_u8 { buf := [0, 0, 0], reader_index := 0, writer_index := 3 } 7 = none ↔
      ([0, 0, 0] : List Nat).length - 3 < 1) := by
  obtain ⟨c1, c2, c3, c4, c5, c6, c7, c8, c9, c10⟩ :=
    sequential_bounds 4 7 (-1) { buf := [0, 0, 0], reader_index := 0, writer_index := 3 }
      (by decide)
  exact ⟨c1, c10.1⟩

/-- C7: the unsuffixed operations decode big-endian (network order) and the
`_le` variants little-endian: `wrap_with([0,1,2,3,4,5,6], 1, 5)` followed by
`read_u32()` yields `0x01020304` (the big-endian value of bytes 1..5), the
four-byte decoders satisfy the positional be/le formulas, and `read_u32` /
`read_u32_le` are exactly the be/le macro arms at size 4. -/
theorem default_big_endian :
    (∃ b, BufView.wrap_with [0, 1, 2, 3, 4, 5, 6] 1 5 = some b ∧
      ∃ b2, b.read_u32 = some (0x01020304, b2)) ∧
    (∀ a b c d : Nat,
      fromBeBytes [a, b, c, d] = ((a * 256 + b) * 256 + c) * 256 + d ∧
      fromLeBytes [a, b, c, d] = ((d * 256 + c) * 256 + b) * 256 + a) ∧
    (BufViewState.read_u32 = fun b => buf_read_do_be 4 b) ∧
    (BufViewState.read_u32_le = fun b => buf_read_do_le 4 b) := by
  refine ⟨⟨{ buf := [0, 1, 2, 3, 4, 5, 6], reader_index := 1, writer_index := 5 },
          by decide,
          { buf := [0, 1, 2, 3, 4, 5, 6], reader_index := 5, writer_index := 5 },
          by decide⟩, ?_, rfl, rfl⟩
  intro a b c d
  constructor
  · simp [fromBeBytes]
  · simp [fromLeBytes, fromBeBytes]

/-- C8: `BufView::wrap` yields cursors `(0, capacity)`, `BufViewMut::wrap`
yields `(0, 0)`, and `wrap_with(buf, r, w)` of either view succeeds exactly
when `r ≤ w ≤ capacity`, in which case it stores exactly those cursors. -/
theorem construction_spec (buf : List Nat) (r w : Nat) :
    BufView.wrap buf = some { buf := buf, reader_index := 0, writer_index := buf.length } ∧
    BufViewMut.wrap buf = some { buf := buf, reader_index := 0, writer_index := 0 } ∧
    ((BufView.wrap_with buf r w).isSome ↔ (r ≤ w ∧ w ≤ buf.length)) ∧
    (∀ v, BufView.wrap_with buf r w = some v →
      v = { buf := buf, reader_index := r, writer_index := w }) ∧
    ((BufViewMut.wrap_with buf r w).isSome ↔ (r ≤ w ∧ w ≤ buf.length)) ∧
    (∀ v, BufViewMut.wrap_with buf r w = some v →
      v = { buf := buf, reader_index := r, writer_index := w }) := by
  refine ⟨?_, ?_, ?_, ?_, ?_, ?_⟩
  · unfold BufView.wrap BufView.wrap_with
    rw [if_pos ⟨Nat.zero_le _, Nat.le_refl _⟩]
  · unfold BufViewMut.wrap BufViewMut.wrap_with
    rw [if_pos ⟨Nat.le_refl 0, Nat.zero_le _⟩]
  · unfold BufView.wrap_with
    split
    · rename_i hc
      simp
      exact ⟨hc.1, hc.2⟩
    · rename_i hc
      simp
      omega
  · intro v h
    unfold BufView.wrap_with at h
    split at h
    · injection h with h
      exact h.symm
    · exact absurd h (by simp)
  · unfold BufViewMut.wrap_with
    split
    · rename_i hc
      simp
      exact ⟨hc.1, hc.2⟩
    · rename_i hc
      simp
      omega
  · intro v h
    unfold BufViewMut.wrap_with at h
    split at h
    · injection h with h
      exact h.symm
    · exact absurd h (by simp)

/-- C8 witness: `wrap_with([1,2], 1, 2)` succeeds and stores exactly those
cursors. -/
theorem construction_spec_witness :
    { buf := [1, 2], reader_index := 1, writer_index := 2 }
      = ({ buf := [1, 2], reader_index := 1, writer_index := 2 } : BufViewState) :=
  (construction_spec [1, 2] 1 2).2.2.2.1
    { buf := [1, 2], reader_index := 1, writer_index := 2 } (by decide)

/-- C9: every random-access operation leaves both cursors unchanged; the get
family returns the view completely unchanged (backing bytes included), and
`set_u8`/`set_bytes` (hence every `set_<T>[_le]`) keep both cursors and the
capacity. -/
theorem random_access_frame (b : BufViewState) (size i v : Nat) (dest src : List Nat) :
    (∀ x b2, buf_get_do_be size i b = some (x, b2) → b2 = b) ∧
    (∀ x b2, buf_get_do_le size i b = some (x, b2) → b2 = b) ∧
    (∀ x b2, b.get_u8 i = some (x, b2) → b2 = b) ∧
    (∀ x b2, b.get_i8 i = some (x, b2) → b2 = b) ∧
    (∀ n d2 b2, b.get_bytes i dest = some (n, d2, b2) → b2 = b) ∧
    (∀ b2, BufViewMut.set_u8 b i v = some b2 →
      b2.reader_index = b.reader_index ∧ b2.writer_index = b.writer_index ∧
      b2.buf.length = b.buf.length) ∧
    (∀ b2, BufViewMut.set_bytes b i src = some b2 →
      b2.reader_index = b.reader_index ∧ b2.writer_index = b.writer_index ∧
      b2.buf.length = b.buf.length) := by
  refine ⟨?_, ?_, ?_, ?_, ?_, ?_, ?_⟩
  · intro x b2 h
    exact (buf_get_do_be_eq_some h).2.2
  · intro x b2 h
    exact (buf_get_do_le_eq_some h).2.2
  · intro x b2 h
    exact (get_u8_eq_some h).2.2
  · intro x b2 h
    unfold BufViewState.get_i8 at h
    rcases Option.map_eq_some'.mp h with ⟨⟨x0, b0⟩, hp, hs⟩
    injection hs with hs1 hs2
    rw [← hs2]
    exact (get_u8_eq_some hp).2.2
  · intro n d2 b2 h
    exact (get_bytes_eq_some h).2.2.2
  · intro b2 h
    rcases set_u8_eq_some h with ⟨hw, hb2⟩
    rw [hb2]
    exact ⟨rfl, rfl, List.length_set b.buf i (v % 256)⟩
  · intro b2 h
    rcases set_bytes_eq_some h with ⟨hw, hb2⟩
    rw [hb2]
    exact ⟨rfl, rfl, setSlice_length _ _ _ hw⟩

/-- C9 witness: `get_u8(0)` on a 1-byte view returns the view unchanged. -/
theorem random_access_frame_witness :
    { buf := [3], reader_index := 0, writer_index := 1 }
      = ({ buf := [3], reader_index := 0, writer_index := 1 } : BufViewState) :=
  (random_access_frame { buf := [3], reader_index := 0, writer_index := 1 } 1 0 0 [] []).2.2.1
    3 { buf := [3], reader_index := 0, writer_index := 1 } (by decide)

/-- C10: the `std::io::Write` implementation of `BufViewMut`: `write`
delegates to `write_bytes_uncheck` and, whenever it returns at all, returns
`Ok` with the copied count and leaves both cursors unchanged (so successive
`write` calls place bytes at the same `writer_index`); `flush` returns
`Ok(())` and changes nothing. -/
theorem io_write_spec (b : BufViewState) (src : List Nat) :
    (∀ r b2, BufViewMut.io_write b src = some (r, b2) →
      (∃ n, r = Except.ok n ∧ BufViewMut.write_bytes_uncheck b src = some (n, b2)) ∧
      b2.reader_index = b.reader_index ∧ b2.writer_index = b.writer_index) ∧
    BufViewMut.io_flush b = (Except.ok (), b) := by
  constructor
  · intro r b2 h
    unfold BufViewMut.io_write at h
    rcases Option.map_eq_some'.mp h with ⟨⟨n, b2x⟩, hp, hs⟩
    injection hs with hs1 hs2
    simp only [] at hs1 hs2
    rcases write_bytes_uncheck_eq_some hp with ⟨hw, hn, hns, hb2⟩
    refine ⟨⟨n, hs1.symm, by rw [hp, hs2]⟩, ?_, ?_⟩
    · rw [← hs2, hb2]
    · rw [← hs2, hb2]
  · rfl

/-- C10 witness: `Write::write` of a 3-byte `src` into a fresh 2-byte view
returns `Ok(2)` and leaves both cursors at 0. -/
theorem io_write_spec_witness :
    (∃ n, (Except.ok 2 : Except String Nat) = Except.ok n ∧
      BufViewMut.write_bytes_uncheck { buf := [0, 0], reader_index := 0, writer_index := 0 }
        [5, 7, 9] = some (n, { buf := [5, 7], reader_index := 0, writer_index := 0 })) ∧
    (0 : Nat) = 0 ∧ (0 : Nat) = 0 :=
  (io_write_spec { buf := [0, 0], reader_index := 0, writer_index := 0 } [5, 7, 9]).1
    (Except.ok 2) { buf := [5, 7], reader_index := 0, writer_index := 0 } (by rfl)

/-- C1: concrete evaluation of `write_bytes_uncheck`.  With `src = [9]`
shorter than the 4 bytes of remaining capacity the call FAULTS — the
`copy_from_slice` of `src[..1]` into the whole 4-byte tail
`buf[writer_index..]` panics on the length mismatch — contradicting the
claim that the short-`src` case copies `min(len(src), capacity -
writer_index)` bytes without faulting.  With `src` of length ≥ the
remaining capacity (second and third conjuncts) it truncates silently,
returns the count, and leaves `writer_index` at 0, as the claim says. -/
theorem write_bytes_uncheck_eval_cases :
    BufViewMut.write_bytes_uncheck
      { buf := [0, 0, 0, 0], reader_index := 0, writer_index := 0 } [9] = none ∧
    BufViewMut.write_bytes_uncheck
      { buf := [0, 0], reader_index := 0, writer_index := 0 } [1, 2, 3]
      = some (2, { buf := [1, 2], reader_index := 0, writer_index := 0 }) ∧
    BufViewMut.write_bytes_uncheck
      { buf := [0, 0], reader_index := 0, writer_index := 0 } [1, 2]
      = some (2, { buf := [1, 2], reader_index := 0, writer_index := 0 }) := by
  exact ⟨by decide, by decide, by decide⟩
